import Mathlib

/-!
Verification of `src/react/features/base/redux/functions.js`.

The file exports four functions over plain JavaScript objects used as Redux
state: `assign`, `equals`, `set`, `toState`, plus the internal `_set`.

Shallow embedding notes:
* JavaScript values are modelled by `JSVal`.  Objects, arrays and functions
  carry a numeric identity `id`: two object values are `===`-identical
  exactly when their ids coincide (the model's stand-in for reference
  identity; every allocation stamps a fresh id).  Numbers are modelled by
  `Int` plus a separate `nan` constructor, since `NaN` has special `===`
  behaviour.  A zero-argument function is modelled by `func id ret`: calling
  it returns `ret`.
* The top-level state handled by `set`/`assign` is always an object; it is
  modelled by the structure `JSObj` (an id plus an association list of own
  enumerable properties, in insertion order, no prototype chain — the spec's
  data model is a plain string-keyed mapping).
* Allocation is made explicit: the operations thread a counter `ctr`, the
  next fresh object id.  `{ ...state }` produces an object with id `ctr` and
  returns `ctr + 1` as the new counter.  "No allocation" is "the counter is
  returned unchanged"; "same reference" is equality in the model (the
  no-allocation paths return the input verbatim).
-/

namespace ReduxFunctions

/-- A JavaScript value (restricted to the JSON-like shapes plus zero-argument
functions that the spec's data model describes). -/
inductive JSVal : Type where
  | undef : JSVal
  | null : JSVal
  | boolean (b : Bool) : JSVal
  | number (n : Int) : JSVal
  | nan : JSVal
  | string (s : String) : JSVal
  | object (id : Nat) (fields : List (String × JSVal)) : JSVal
  | array (id : Nat) (elems : List JSVal) : JSVal
  | func (id : Nat) (ret : JSVal) : JSVal

/-- A top-level state object: an identity plus its own enumerable properties
(association list in insertion order). -/
structure JSObj : Type where
  id : Nat
  fields : List (String × JSVal)

/-- `typeof value === 'undefined'`. -/
def isUndefined : JSVal → Bool
  | JSVal.undef => true
  | _ => false

/-- `typeof value === 'function'`. -/
def isFunction : JSVal → Bool
  | JSVal.func _ _ => true
  | _ => false

/-- JavaScript truthiness: `undefined`, `null`, `false`, `0`, `NaN` and the
empty string are falsy, everything else is truthy. -/
def truthy : JSVal → Bool
  | JSVal.undef => false
  | JSVal.null => false
  | JSVal.boolean b => b
  | JSVal.number n => n != 0
  | JSVal.nan => false
  | JSVal.string s => s != ""
  | _ => true

/-- JavaScript strict equality `===`: structural on primitives, reference
(id) equality on objects, arrays and functions; `NaN` is not `===` to
anything, itself included. -/
def strictEq : JSVal → JSVal → Bool
  | JSVal.nan, _ => false
  | _, JSVal.nan => false
  | JSVal.undef, JSVal.undef => true
  | JSVal.null, JSVal.null => true
  | JSVal.boolean a, JSVal.boolean b => a == b
  | JSVal.number a, JSVal.number b => a == b
  | JSVal.string a, JSVal.string b => a == b
  | JSVal.object i _, JSVal.object j _ => i == j
  | JSVal.array i _, JSVal.array j _ => i == j
  | JSVal.func i _, JSVal.func j _ => i == j
  | _, _ => false

/-- `state[property]` on a plain object: the first binding of the key, or
`undefined` when the key is absent (no prototype chain in the data model). -/
def getField : List (String × JSVal) → String → JSVal
  | [], _ => JSVal.undef
  | kv :: rest, p => if kv.1 = p then kv.2 else getField rest p

/-- `Object.prototype.hasOwnProperty.call(state, property)`. -/
def hasOwn (fields : List (String × JSVal)) (p : String) : Bool :=
  fields.any (fun kv => kv.1 == p)

/-- The field list of `{ ...state, [property]: value }`: if the key is
present its binding is updated in place (JavaScript keeps the original
insertion position), otherwise the new binding is appended. -/
def setField (fields : List (String × JSVal)) (p : String) (v : JSVal) :
    List (String × JSVal) :=
  if hasOwn fields p then
    fields.map (fun kv => if kv.1 = p then (p, v) else kv)
  else
    fields ++ [(p, v)]

/-- The field list after `delete newState[property]`: every binding of the
key is removed. -/
def removeField : List (String × JSVal) → String → List (String × JSVal)
  | [], _ => []
  | kv :: rest, p =>
      if kv.1 = p then removeField rest p else kv :: removeField rest p

/-- `_set(state, property, value, copyOnWrite)` from the source, with the
allocation counter made explicit.  Mirrors the control flow:
1. when `value` is `undefined` and `state` has the own property, clone
   (when `copyOnWrite`) and delete the property (`delete` always succeeds on
   a plain object's own property);
2. otherwise when `state[property] !== value`, clone (when `copyOnWrite`)
   with the property set;
3. otherwise return `state` itself. -/
def _set (state : JSObj) (property : String) (value : JSVal)
    (copyOnWrite : Bool) (ctr : Nat) : JSObj × Nat :=
  if isUndefined value && hasOwn state.fields property then
    if copyOnWrite then
      (⟨ctr, removeField state.fields property⟩, ctr + 1)
    else
      (⟨state.id, removeField state.fields property⟩, ctr)
  else if !strictEq (getField state.fields property) value then
    if copyOnWrite then
      (⟨ctr, setField state.fields property value⟩, ctr + 1)
    else
      (⟨state.id, setField state.fields property value⟩, ctr)
  else
    (state, ctr)

/-- `set(state, property, value)`: declared with exactly three parameters in
the source and always calls `_set` with `copyOnWrite` equal to `true`. -/
def set (state : JSObj) (property : String) (value : JSVal) (ctr : Nat) :
    JSObj × Nat :=
  _set state property value true ctr

/-- `assign(target, source)`: folds `set` over the entries of `source` in
iteration (insertion) order.  The source code writes
`t = set(t, property, source[property], t === target)`, but `set` is
declared with only three parameters, so JavaScript silently discards the
fourth argument `t === target`; the call is therefore an ordinary
three-argument `set` (always copy-on-write), which this definition
reproduces. -/
def assign (target : JSObj) (source : List (String × JSVal)) (ctr : Nat) :
    JSObj × Nat :=
  match source with
  | [] => (target, ctr)
  | (property, value) :: rest =>
      let t := set target property value ctr
      assign t.1 rest t.2

/-- The membership read by `toState`: `stateful.name` for an object, and
`undefined` for every non-object (destructuring a primitive yields
`undefined` members; the model's arrays and functions carry no members). -/
def getMember : JSVal → String → JSVal
  | JSVal.object _ fields, name => getField fields name
  | _, _ => JSVal.undef

/-- Calling a modelled zero-argument function: returns its `ret`.  Only ever
applied under an `isFunction` guard. -/
def call0 : JSVal → JSVal
  | JSVal.func _ r => r
  | _ => JSVal.undef

/-- `toState(stateful)` from the source: when `stateful` is truthy, a
function is invoked and its result returned; otherwise when both
`stateful.getState` and `stateful.dispatch` are functions, `getState()` is
returned; in every other case `stateful` itself is returned. -/
def toState (stateful : JSVal) : JSVal :=
  if truthy stateful then
    if isFunction stateful then
      call0 stateful
    else
      let getState := getMember stateful "getState"
      if isFunction getState && isFunction (getMember stateful "dispatch") then
        call0 getState
      else
        stateful
  else
    stateful

/-- First binding of a key in a field list, as an option (the lookup lodash's
deep comparison performs on the second object's own properties). -/
def findField : List (String × JSVal) → String → Option JSVal
  | [], _ => none
  | kv :: rest, p => if kv.1 = p then some kv.2 else findField rest p

/-- No key occurs twice in a field list. -/
def nodupKeys : List (String × JSVal) → Bool
  | [] => true
  | kv :: fs => !hasOwn fs kv.1 && nodupKeys fs

mutual

/-- Models `_.isEqual` (lodash), which `equals` delegates to, restricted to
this value model: structural on primitives with `NaN` equal to `NaN`,
element-wise in order on arrays, key-set based on plain objects (same number
of own keys and every key of the first object present in the second with a
deeply equal value), and reference identity on functions.  Object and array
ids are ignored (deep comparison is structural, not referential). -/
def deepEq : JSVal → JSVal → Bool
  | JSVal.undef, JSVal.undef => true
  | JSVal.null, JSVal.null => true
  | JSVal.boolean a, JSVal.boolean b => a == b
  | JSVal.number a, JSVal.number b => a == b
  | JSVal.nan, JSVal.nan => true
  | JSVal.string a, JSVal.string b => a == b
  | JSVal.object _ fs, JSVal.object _ gs =>
      fs.length == gs.length && deepEqFields fs gs
  | JSVal.array _ xs, JSVal.array _ ys => deepEqList xs ys
  | JSVal.func i _, JSVal.func j _ => i == j
  | _, _ => false
termination_by a _ => sizeOf a

/-- Element-wise deep equality of array contents. -/
def deepEqList : List JSVal → List JSVal → Bool
  | [], [] => true
  | x :: xs, y :: ys => deepEq x y && deepEqList xs ys
  | _, _ => false
termination_by xs _ => sizeOf xs

/-- Every binding of the first field list is matched by a deeply equal
binding in the second. -/
def deepEqFields : List (String × JSVal) → List (String × JSVal) → Bool
  | [], _ => true
  | (k, v) :: fs, gs =>
      (match findField gs k with
       | some w => deepEq v w
       | none => false)
      && deepEqFields fs gs
termination_by fs _ => sizeOf fs

end

/-- `equals(a, b)`: delegates to the deep comparison. -/
def equals (a b : JSVal) : Bool :=
  deepEq a b

mutual

/-- Well-formedness of a value as a real JavaScript value: every object has
no duplicate own keys (a JavaScript object binds each key once). -/
def wfVal : JSVal → Bool
  | JSVal.object _ fs => nodupKeys fs && wfFields fs
  | JSVal.array _ xs => wfList xs
  | JSVal.func _ r => wfVal r
  | _ => true
termination_by a => sizeOf a

/-- Well-formedness of array contents. -/
def wfList : List JSVal → Bool
  | [] => true
  | x :: xs => wfVal x && wfList xs
termination_by xs => sizeOf xs

/-- Well-formedness of the values of a field list. -/
def wfFields : List (String × JSVal) → Bool
  | [] => true
  | (_, v) :: fs => wfVal v && wfFields fs
termination_by fs => sizeOf fs

end

/-! ### Lemmas about field lists -/

theorem hasOwn_nil (p : String) : hasOwn [] p = false := rfl

theorem hasOwn_cons (kv : String × JSVal) (fs : List (String × JSVal))
    (p : String) : hasOwn (kv :: fs) p = (kv.1 == p || hasOwn fs p) := by
  simp [hasOwn]

theorem hasOwn_eq_false_iff (fs : List (String × JSVal)) (p : String) :
    hasOwn fs p = false ↔ ∀ kv ∈ fs, kv.1 ≠ p := by
  simp [hasOwn]

theorem getField_of_hasOwn_eq_false (fs : List (String × JSVal)) (p : String)
    (h : hasOwn fs p = false) : getField fs p = JSVal.undef := by
  induction fs with
  | nil => rfl
  | cons kv rest ih =>
      rw [hasOwn_cons] at h
      simp only [Bool.or_eq_false_iff, beq_eq_false_iff_ne] at h
      simp [getField, h.1, ih h.2]

theorem getField_append (fs gs : List (String × JSVal)) (k : String) :
    getField (fs ++ gs) k
      = if hasOwn fs k then getField fs k else getField gs k := by
  induction fs with
  | nil => simp [getField, hasOwn]
  | cons kv rest ih =>
      by_cases hk : kv.1 = k
      · simp [getField, hasOwn_cons, hk]
      · simp [getField, hasOwn_cons, hk, ih]

theorem getField_mapReplace_ne (fs : List (String × JSVal)) (p k : String)
    (v : JSVal) (h : k ≠ p) :
    getField (fs.map (fun kv => if kv.1 = p then (p, v) else kv)) k
      = getField fs k := by
  induction fs with
  | nil => rfl
  | cons kv rest ih =>
      by_cases hk : kv.1 = p
      · have h1 : p ≠ k := Ne.symm h
        have h2 : kv.1 ≠ k := by rw [hk]; exact h1
        simp [getField, hk, h1, h2, ih]
      · by_cases hk2 : kv.1 = k
        · simp [getField, hk, hk2, h]
        · simp [getField, hk, hk2, ih]

theorem getField_mapReplace_self (fs : List (String × JSVal)) (p : String)
    (v : JSVal) (h : hasOwn fs p = true) :
    getField (fs.map (fun kv => if kv.1 = p then (p, v) else kv)) p = v := by
  induction fs with
  | nil => simp [hasOwn] at h
  | cons kv rest ih =>
      by_cases hk : kv.1 = p
      · simp [getField, hk]
      · rw [hasOwn_cons] at h
        simp only [Bool.or_eq_true, beq_iff_eq, hk, false_or] at h
        simp [getField, hk, ih h]

theorem hasOwn_mapReplace_ne (fs : List (String × JSVal)) (p k : String)
    (v : JSVal) (h : k ≠ p) :
    hasOwn (fs.map (fun kv => if kv.1 = p then (p, v) else kv)) k
      = hasOwn fs k := by
  induction fs with
  | nil => rfl
  | cons kv rest ih =>
      by_cases hk : kv.1 = p
      · have h1 : p ≠ k := Ne.symm h
        have h2 : kv.1 ≠ k := by rw [hk]; exact h1
        simp [hasOwn_cons, hk, h1, h2, ih]
      · simp [hasOwn_cons, hk, ih]

theorem getField_setField_self (fs : List (String × JSVal)) (p : String)
    (v : JSVal) : getField (setField fs p v) p = v := by
  unfold setField
  by_cases h : hasOwn fs p
  · simp [h, getField_mapReplace_self fs p v h]
  · simp only [h, Bool.false_eq_true, if_false, getField_append]
    simp [h, getField]

theorem getField_setField_ne (fs : List (String × JSVal)) (p k : String)
    (v : JSVal) (h : k ≠ p) : getField (setField fs p v) k = getField fs k := by
  unfold setField
  by_cases hw : hasOwn fs p
  · simp [hw, getField_mapReplace_ne fs p k v h]
  · simp only [hw, Bool.false_eq_true, if_false, getField_append]
    have h1 : p ≠ k := Ne.symm h
    by_cases hk : hasOwn fs k
    · simp [hk]
    · simp [hk, getField, h1,
        getField_of_hasOwn_eq_false fs k (by simpa using hk)]

theorem hasOwn_setField_ne (fs : List (String × JSVal)) (p k : String)
    (v : JSVal) (h : k ≠ p) : hasOwn (setField fs p v) k = hasOwn fs k := by
  unfold setField
  by_cases hw : hasOwn fs p
  · simp [hw, hasOwn_mapReplace_ne fs p k v h]
  · simp only [hw, Bool.false_eq_true, if_false]
    simp [hasOwn, List.any_append, Ne.symm h]

theorem getField_removeField_ne (fs : List (String × JSVal)) (p k : String)
    (h : k ≠ p) : getField (removeField fs p) k = getField fs k := by
  induction fs with
  | nil => rfl
  | cons kv rest ih =>
      by_cases hk : kv.1 = p
      · have h2 : kv.1 ≠ k := by rw [hk]; exact Ne.symm h
        simp [removeField, hk, getField, h2, Ne.symm h, ih]
      · by_cases hk2 : kv.1 = k
        · simp [removeField, hk, getField, hk2, h]
        · simp [removeField, hk, getField, hk2, ih]

theorem hasOwn_removeField_self (fs : List (String × JSVal)) (p : String) :
    hasOwn (removeField fs p) p = false := by
  induction fs with
  | nil => rfl
  | cons kv rest ih =>
      by_cases hk : kv.1 = p
      · simp [removeField, hk, ih]
      · simp [removeField, hk, hasOwn_cons, ih]

theorem hasOwn_removeField_ne (fs : List (String × JSVal)) (p k : String)
    (h : k ≠ p) : hasOwn (removeField fs p) k = hasOwn fs k := by
  induction fs with
  | nil => rfl
  | cons kv rest ih =>
      by_cases hk : kv.1 = p
      · have h2 : kv.1 ≠ k := by rw [hk]; exact Ne.symm h
        simp [removeField, hk, hasOwn_cons, h2, Ne.symm h, ih]
      · simp [removeField, hk, hasOwn_cons, ih]

theorem getField_removeField_self (fs : List (String × JSVal)) (p : String) :
    getField (removeField fs p) p = JSVal.undef :=
  getField_of_hasOwn_eq_false _ _ (hasOwn_removeField_self fs p)

/-! ### Lemmas about `set` and `assign` -/

theorem isUndefined_iff (v : JSVal) : isUndefined v = true ↔ v = JSVal.undef := by
  cases v <;> simp [isUndefined]

/-- The no-op branch of `set`: when the value is not a deletion request and
is `===`-identical to the current value, the state is returned unchanged and
nothing is allocated. -/
theorem set_eq_of_noop (s : JSObj) (p : String) (v : JSVal) (ctr : Nat)
    (h1 : isUndefined v = true → hasOwn s.fields p = false)
    (h2 : strictEq (getField s.fields p) v = true) :
    set s p v ctr = (s, ctr) := by
  unfold set _set
  by_cases hv : isUndefined v = true
  · simp [hv, h1 hv, h2]
  · simp only [Bool.not_eq_true] at hv
    simp [hv, h2]

/-- `set` either returns its input with the counter untouched, or returns a
freshly allocated object stamped with the current counter. -/
theorem set_cases (s : JSObj) (p : String) (v : JSVal) (ctr : Nat) :
    set s p v ctr = (s, ctr)
      ∨ ((set s p v ctr).1.id = ctr ∧ (set s p v ctr).2 = ctr + 1) := by
  unfold set _set
  by_cases hd : isUndefined v && hasOwn s.fields p
  · right
    simp [hd]
  · by_cases hs : strictEq (getField s.fields p) v
    · left
      simp [hd, hs]
    · right
      simp [hd, hs]

theorem getField_set_ne (s : JSObj) (p k : String) (v : JSVal) (ctr : Nat)
    (h : k ≠ p) : getField (set s p v ctr).1.fields k = getField s.fields k := by
  unfold set _set
  by_cases hd : isUndefined v && hasOwn s.fields p
  · simp [hd, getField_removeField_ne s.fields p k h]
  · by_cases hs : strictEq (getField s.fields p) v
    · simp [hd, hs]
    · simp [hd, hs, getField_setField_ne s.fields p k v h]

theorem hasOwn_set_ne (s : JSObj) (p k : String) (v : JSVal) (ctr : Nat)
    (h : k ≠ p) : hasOwn (set s p v ctr).1.fields k = hasOwn s.fields k := by
  unfold set _set
  by_cases hd : isUndefined v && hasOwn s.fields p
  · simp [hd, hasOwn_removeField_ne s.fields p k h]
  · by_cases hs : strictEq (getField s.fields p) v
    · simp [hd, hs]
    · simp [hd, hs, hasOwn_setField_ne s.fields p k v h]

/-- A key/value pair is stable on a field list when writing it is a no-op:
the value is `===`-identical to the current one and, if it is the
absent-marker, the key is absent. -/
def keyStable (k : String) (v : JSVal) (fs : List (String × JSVal)) : Prop :=
  (isUndefined v = true → hasOwn fs k = false)
    ∧ strictEq (getField fs k) v = true

theorem set_eq_of_keyStable (s : JSObj) (p : String) (v : JSVal) (ctr : Nat)
    (h : keyStable p v s.fields) : set s p v ctr = (s, ctr) :=
  set_eq_of_noop s p v ctr h.1 h.2

/-- After `set s p v`, the pair `(p, v)` is stable on the result — provided
`v` is `===`-identical to itself (everything except `NaN`). -/
theorem keyStable_set_self (s : JSObj) (p : String) (v : JSVal) (ctr : Nat)
    (hv : strictEq v v = true) : keyStable p v (set s p v ctr).1.fields := by
  unfold set _set
  by_cases hd : (isUndefined v && hasOwn s.fields p) = true
  · have hparts : isUndefined v = true ∧ hasOwn s.fields p = true := by
      simpa using hd
    have hu : v = JSVal.undef := (isUndefined_iff v).1 hparts.1
    subst hu
    refine ⟨fun _ => ?_, ?_⟩
    · simp [hd, hasOwn_removeField_self]
    · simp [hd, getField_removeField_self, strictEq]
  · by_cases hs : strictEq (getField s.fields p) v = true
    · refine ⟨fun hu => ?_, ?_⟩
      · have := (isUndefined_iff v).1 hu
        subst this
        have hown : hasOwn s.fields p = false := by
          simpa [isUndefined] using hd
        simp [hd, hs, hown]
      · simp [hd, hs]
    · -- the clone-and-set branch: the new value is stored at `p`
      refine ⟨fun hu => ?_, ?_⟩
      · -- impossible: an undefined value with the key absent is a no-op
        have := (isUndefined_iff v).1 hu
        subst this
        have hown : hasOwn s.fields p = false := by
          simpa [isUndefined] using hd
        have := getField_of_hasOwn_eq_false s.fields p hown
        rw [this] at hs
        simp [strictEq] at hs
      · simp [hd, hs, getField_setField_self, hv]

theorem keyStable_set_ne (t : JSObj) (p k : String) (v w : JSVal) (ctr : Nat)
    (h : k ≠ p) (hk : keyStable k v t.fields) :
    keyStable k v (set t p w ctr).1.fields := by
  constructor
  · intro hu
    rw [hasOwn_set_ne t p k w ctr h]
    exact hk.1 hu
  · rw [getField_set_ne t p k w ctr h]
    exact hk.2

theorem assign_nil (t : JSObj) (ctr : Nat) : assign t [] ctr = (t, ctr) := rfl

theorem assign_cons (t : JSObj) (p : String) (v : JSVal)
    (rest : List (String × JSVal)) (ctr : Nat) :
    assign t ((p, v) :: rest) ctr
      = assign (set t p v ctr).1 rest (set t p v ctr).2 := rfl

/-- Properties not named in the change set are carried through `assign` by
reference. -/
theorem getField_assign_notin (c : List (String × JSVal)) :
    ∀ (t : JSObj) (ctr : Nat) (k : String), (∀ kv ∈ c, kv.1 ≠ k) →
      getField (assign t c ctr).1.fields k = getField t.fields k := by
  induction c with
  | nil => intro t ctr k _; rfl
  | cons kv rest ih =>
      intro t ctr k h
      rw [assign_cons, ih _ _ _ (fun kv hkv => h kv (List.mem_cons_of_mem _ hkv)),
        getField_set_ne t kv.1 k kv.2 ctr (Ne.symm (h kv (List.mem_cons_self _ _)))]

theorem keyStable_assign_notin (c : List (String × JSVal)) :
    ∀ (t : JSObj) (ctr : Nat) (k : String) (v : JSVal), (∀ kv ∈ c, kv.1 ≠ k) →
      keyStable k v t.fields → keyStable k v (assign t c ctr).1.fields := by
  induction c with
  | nil => intro t ctr k v _ hk; exact hk
  | cons kv rest ih =>
      intro t ctr k v h hk
      rw [assign_cons]
      exact ih _ _ _ _ (fun kv hkv => h kv (List.mem_cons_of_mem _ hkv))
        (keyStable_set_ne t kv.1 k v kv.2 ctr
          (Ne.symm (h kv (List.mem_cons_self _ _))) hk)

/-- When every entry of the change set is stable on `r`, `assign` is a
complete no-op: same reference, no allocation. -/
theorem assign_eq_of_keyStable (c : List (String × JSVal)) :
    ∀ (r : JSObj) (ctr : Nat), (∀ kv ∈ c, keyStable kv.1 kv.2 r.fields) →
      assign r c ctr = (r, ctr) := by
  induction c with
  | nil => intro r ctr _; rfl
  | cons kv rest ih =>
      intro r ctr h
      have h0 : set r kv.1 kv.2 ctr = (r, ctr) :=
        set_eq_of_keyStable r kv.1 kv.2 ctr (h kv (List.mem_cons_self _ _))
      rw [assign_cons, h0]
      exact ih r ctr (fun kv hkv => h kv (List.mem_cons_of_mem _ hkv))

theorem nodupKeys_cons_iff (kv : String × JSVal) (fs : List (String × JSVal)) :
    nodupKeys (kv :: fs) = true ↔ hasOwn fs kv.1 = false ∧ nodupKeys fs = true := by
  simp [nodupKeys]

/-- After one pass of `assign` over a duplicate-free change set whose values
are `===`-identical to themselves, every entry is stable on the result. -/
theorem assign_keyStable_all (c : List (String × JSVal)) :
    ∀ (s : JSObj) (ctr : Nat), nodupKeys c = true →
      (∀ kv ∈ c, strictEq kv.2 kv.2 = true) →
      ∀ kv ∈ c, keyStable kv.1 kv.2 (assign s c ctr).1.fields := by
  induction c with
  | nil => intro s ctr _ _ kv hkv; cases hkv
  | cons kv0 rest ih =>
      intro s ctr hnd hself kv hkv
      obtain ⟨hown, hnd'⟩ := (nodupKeys_cons_iff kv0 rest).1 hnd
      have hne : ∀ kv ∈ rest, kv.1 ≠ kv0.1 :=
        (hasOwn_eq_false_iff rest kv0.1).1 hown
      rw [assign_cons]
      rcases List.mem_cons.1 hkv with h | h
      · subst h
        exact keyStable_assign_notin rest _ _ _ _ hne
          (keyStable_set_self s kv.1 kv.2 ctr
            (hself kv (List.mem_cons_self _ _)))
      · exact ih _ _ hnd' (fun kv hkv => hself kv (List.mem_cons_of_mem _ hkv)) kv h

/-- The running counter, hence every id handed out later, only grows during
`assign`; combined with `set_cases` this keeps fresh ids distinct from the
ids of all pre-existing objects. -/
theorem assign_ref (c : List (String × JSVal)) :
    ∀ (t : JSObj) (m : Nat) (s : JSObj), s.id < m → t.id < m →
      (t = s ∨ s.id < t.id) →
      ((assign t c m).1 = s ∨ s.id < (assign t c m).1.id)
        ∧ (assign t c m).1.id < (assign t c m).2
        ∧ s.id < (assign t c m).2 := by
  induction c with
  | nil => intro t m s h1 h2 h3; exact ⟨h3, h2, h1⟩
  | cons kv rest ih =>
      intro t m s h1 h2 h3
      rw [assign_cons]
      rcases set_cases t kv.1 kv.2 m with h | ⟨hid, hctr⟩
      · rw [h]
        exact ih t m s h1 h2 h3
      · refine ih _ _ s ?_ ?_ ?_
        · rw [hctr]
          omega
        · rw [hid, hctr]
          omega
        · right
          rw [hid]
          exact h1

/-- `set` never produces a distinct object carrying the state's identity. -/
theorem set_id_eq (s : JSObj) (p : String) (v : JSVal) (ctr : Nat)
    (hid : s.id < ctr) (h : (set s p v ctr).1.id = s.id) :
    (set s p v ctr).1 = s := by
  rcases set_cases s p v ctr with h0 | ⟨h1, _⟩
  · rw [h0]
  · rw [h1] at h
    omega

/-- `assign` never produces a distinct object carrying the state's identity. -/
theorem assign_id_eq (s : JSObj) (c : List (String × JSVal)) (ctr : Nat)
    (hid : s.id < ctr) (h : (assign s c ctr).1.id = s.id) :
    (assign s c ctr).1 = s := by
  rcases (assign_ref c s ctr s hid hid (Or.inl rfl)).1 with h0 | h0
  · exact h0
  · omega

theorem isFunction_truthy (v : JSVal) (h : isFunction v = true) :
    truthy v = true := by
  cases v <;> simp [isFunction, truthy] at h ⊢

/-! ### The claims -/

/-- C1, counterexample: the claim demands identity preservation under deep
equality, but `_set` compares with `===`.  With the state
`s = {a: [1]}` (array id 1) and changes `c = {a: [1]}` (a distinct but
deeply equal array, id 2), every key of `c` is deep-equal to the current
value, yet `assign` returns a fresh object (id 3, not 0) and allocates
(counter 3 becomes 4). -/
theorem claim_C1_counterexample :
    deepEq (getField [("a", JSVal.array 1 [JSVal.number 1])] "a")
        (JSVal.array 2 [JSVal.number 1]) = true
    ∧ (assign ⟨0, [("a", JSVal.array 1 [JSVal.number 1])]⟩
        [("a", JSVal.array 2 [JSVal.number 1])] 3).1.id = 3
    ∧ (assign ⟨0, [("a", JSVal.array 1 [JSVal.number 1])]⟩
        [("a", JSVal.array 2 [JSVal.number 1])] 3).2 = 4
    ∧ (assign ⟨0, [("a", JSVal.array 1 [JSVal.number 1])]⟩
        [("a", JSVal.array 2 [JSVal.number 1])] 3).1
        ≠ (⟨0, [("a", JSVal.array 1 [JSVal.number 1])]⟩ : JSObj) := by
  refine ⟨?_, rfl, rfl, ?_⟩
  · simp [getField, deepEq, deepEqList]
  · intro h
    have h3 : (assign (⟨0, [("a", JSVal.array 1 [JSVal.number 1])]⟩ : JSObj)
        [("a", JSVal.array 2 [JSVal.number 1])] 3).1.id = 3 := rfl
    rw [h] at h3
    simp at h3

/-- C1, amended: if every key of the change set maps to a value that is
`===`-identical to the state's current value for that key (in particular,
a key mapped to the absent-marker must be absent from the state), then
`assign(s, c)` returns the exact same reference as `s` and allocates no new
object. -/
theorem claim_C1_amended (s : JSObj) (c : List (String × JSVal)) (ctr : Nat)
    (h : ∀ kv ∈ c, (isUndefined kv.2 = true → hasOwn s.fields kv.1 = false)
        ∧ strictEq (getField s.fields kv.1) kv.2 = true) :
    assign s c ctr = (s, ctr) :=
  assign_eq_of_keyStable c s ctr (fun kv hkv => ⟨(h kv hkv).1, (h kv hkv).2⟩)

/-- Witness for C1 (amended) at `s = {a: 1}`, `c = {a: 1}`. -/
theorem claim_C1_amended_witness :
    (∀ kv ∈ [("a", JSVal.number 1)],
        (isUndefined kv.2 = true
          → hasOwn [("a", JSVal.number 1)] kv.1 = false)
        ∧ strictEq (getField [("a", JSVal.number 1)] kv.1) kv.2 = true)
    ∧ assign ⟨0, [("a", JSVal.number 1)]⟩ [("a", JSVal.number 1)] 1
        = (⟨0, [("a", JSVal.number 1)]⟩, 1) :=
  ⟨by decide, claim_C1_amended ⟨0, [("a", JSVal.number 1)]⟩
    [("a", JSVal.number 1)] 1 (by decide)⟩

/-- C2: the claim (and the spec) promise at most one allocation per batch,
with later differing properties mutating the first clone in place.  The
code instead passes its computed copy-on-write flag `t === target` as a
fourth argument to `set`, which is declared with only three parameters and
always forwards `copyOnWrite = true` to `_set`; the flag is silently
discarded, so every differing property allocates a fresh clone.  At
`s = {a: 1, b: 2}`, `c = {a: 10, b: 20}` the counter advances from 1 to 3:
two allocations (ids 1 and 2) where the claim allows at most one. -/
theorem claim_C2_two_allocations :
    assign ⟨0, [("a", JSVal.number 1), ("b", JSVal.number 2)]⟩
        [("a", JSVal.number 10), ("b", JSVal.number 20)] 1
      = (⟨2, [("a", JSVal.number 10), ("b", JSVal.number 20)]⟩, 3) := rfl

/-- C3: setting an existing property to `undefined` deletes it: the result
is a freshly allocated object (distinct reference), the key is absent from
it (not bound to the marker), and the original state still has the key. -/
theorem claim_C3 (s : JSObj) (p : String) (ctr : Nat)
    (hown : hasOwn s.fields p = true) (hid : s.id < ctr) :
    set s p JSVal.undef ctr = (⟨ctr, removeField s.fields p⟩, ctr + 1)
    ∧ hasOwn (set s p JSVal.undef ctr).1.fields p = false
    ∧ (set s p JSVal.undef ctr).1 ≠ s
    ∧ hasOwn s.fields p = true := by
  have h0 : set s p JSVal.undef ctr = (⟨ctr, removeField s.fields p⟩, ctr + 1) := by
    unfold set _set
    simp [isUndefined, hown]
  refine ⟨h0, ?_, ?_, hown⟩
  · rw [h0]
    exact hasOwn_removeField_self s.fields p
  · rw [h0]
    intro h
    have := congrArg JSObj.id h
    simp only at this
    omega

/-- Witness for C3 at `s = {a: 1, b: 2}`, deleting `a`. -/
theorem claim_C3_witness :
    hasOwn [("a", JSVal.number 1), ("b", JSVal.number 2)] "a" = true
    ∧ (0 : Nat) < 1
    ∧ (set ⟨0, [("a", JSVal.number 1), ("b", JSVal.number 2)]⟩ "a"
          JSVal.undef 1
        = (⟨1, [("b", JSVal.number 2)]⟩, 2)
      ∧ hasOwn (set ⟨0, [("a", JSVal.number 1), ("b", JSVal.number 2)]⟩ "a"
          JSVal.undef 1).1.fields "a" = false
      ∧ (set ⟨0, [("a", JSVal.number 1), ("b", JSVal.number 2)]⟩ "a"
          JSVal.undef 1).1
          ≠ (⟨0, [("a", JSVal.number 1), ("b", JSVal.number 2)]⟩ : JSObj)
      ∧ hasOwn [("a", JSVal.number 1), ("b", JSVal.number 2)] "a" = true) :=
  ⟨rfl, Nat.zero_lt_one,
    claim_C3 ⟨0, [("a", JSVal.number 1), ("b", JSVal.number 2)]⟩ "a" 1
      rfl Nat.zero_lt_one⟩

/-- C4: `set` and `assign` never modify `s` — any result carrying `s`'s
identity is `s` unchanged — and a returned clone is shallow: every property
not named in the change set (respectively different from the single set
property) is carried over reference-identically. -/
theorem claim_C4 (s : JSObj) (c : List (String × JSVal)) (p : String)
    (v : JSVal) (ctr : Nat) :
    (s.id < ctr →
      ((set s p v ctr).1.id = s.id → (set s p v ctr).1 = s)
      ∧ ((assign s c ctr).1.id = s.id → (assign s c ctr).1 = s))
    ∧ (∀ k, k ≠ p → getField (set s p v ctr).1.fields k = getField s.fields k)
    ∧ (∀ k, (∀ kv ∈ c, kv.1 ≠ k) →
        getField (assign s c ctr).1.fields k = getField s.fields k) := by
  refine ⟨fun hid => ⟨set_id_eq s p v ctr hid, assign_id_eq s c ctr hid⟩,
    fun k hk => getField_set_ne s p k v ctr hk,
    fun k hk => getField_assign_notin c s ctr k hk⟩

/-- Witness for C4 at `s = {a: 1, b: 2}`, `c = {a: 10}`, `p = a`,
`v = 10`: the property `b` survives by reference in both results. -/
theorem claim_C4_witness :
    (0 : Nat) < 1
    ∧ ("b" : String) ≠ "a"
    ∧ getField (set ⟨0, [("a", JSVal.number 1), ("b", JSVal.number 2)]⟩ "a"
        (JSVal.number 10) 1).1.fields "b"
      = getField [("a", JSVal.number 1), ("b", JSVal.number 2)] "b" :=
  ⟨Nat.zero_lt_one, by decide,
    (claim_C4 ⟨0, [("a", JSVal.number 1), ("b", JSVal.number 2)]⟩
      [("a", JSVal.number 10)] "a" (JSVal.number 10) 1).2.1 "b" (by decide)⟩

/-- C5: for a non-absent value, `set` returns the state itself when the
current value is `===`-identical to the new one, and otherwise returns a
freshly allocated shallow clone holding the new value. -/
theorem claim_C5 (s : JSObj) (p : String) (v : JSVal) (ctr : Nat)
    (hv : isUndefined v = false) (hid : s.id < ctr) :
    (strictEq (getField s.fields p) v = true → set s p v ctr = (s, ctr))
    ∧ (strictEq (getField s.fields p) v = false →
        set s p v ctr = (⟨ctr, setField s.fields p v⟩, ctr + 1)
        ∧ getField (set s p v ctr).1.fields p = v
        ∧ (set s p v ctr).1 ≠ s) := by
  constructor
  · intro hs
    exact set_eq_of_noop s p v ctr (fun hu => by rw [hu] at hv; cases hv) hs
  · intro hs
    have h0 : set s p v ctr = (⟨ctr, setField s.fields p v⟩, ctr + 1) := by
      unfold set _set
      simp [hv, hs]
    refine ⟨h0, ?_, ?_⟩
    · rw [h0]
      exact getField_setField_self s.fields p v
    · rw [h0]
      intro h
      have := congrArg JSObj.id h
      simp only at this
      omega

/-- Witness for C5 at `s = {a: 1}`: setting `a` to the identical `1` is a
no-op, setting it to `2` clones. -/
theorem claim_C5_witness :
    isUndefined (JSVal.number 1) = false
    ∧ (0 : Nat) < 1
    ∧ (strictEq (getField [("a", JSVal.number 1)] "a") (JSVal.number 1) = true
        → set ⟨0, [("a", JSVal.number 1)]⟩ "a" (JSVal.number 1) 1
          = (⟨0, [("a", JSVal.number 1)]⟩, 1)) :=
  ⟨rfl, Nat.zero_lt_one,
    (claim_C5 ⟨0, [("a", JSVal.number 1)]⟩ "a" (JSVal.number 1) 1
      rfl Nat.zero_lt_one).1⟩

/-- C6: deleting a property the state does not own is a no-op returning the
same reference, because the absent value compares `===`-equal to the
supplied absent-marker and there is nothing to delete. -/
theorem claim_C6 (s : JSObj) (p : String) (ctr : Nat)
    (hown : hasOwn s.fields p = false) :
    set s p JSVal.undef ctr = (s, ctr) := by
  apply set_eq_of_noop s p JSVal.undef ctr (fun _ => hown)
  rw [getField_of_hasOwn_eq_false s.fields p hown]
  rfl

/-- Witness for C6 at `s = {b: 2}`, deleting the absent `a`. -/
theorem claim_C6_witness :
    hasOwn [("b", JSVal.number 2)] "a" = false
    ∧ set ⟨0, [("b", JSVal.number 2)]⟩ "a" JSVal.undef 5
        = (⟨0, [("b", JSVal.number 2)]⟩, 5) :=
  ⟨rfl, claim_C6 ⟨0, [("b", JSVal.number 2)]⟩ "a" 5 rfl⟩

/-- C7: `toState` invokes a function input and returns its result; invokes
`getState` on a truthy input whose `getState` and `dispatch` members are
both functions; and returns every other input unchanged (falsy inputs
included). -/
theorem claim_C7 (v : JSVal) :
    (isFunction v = true → toState v = call0 v)
    ∧ (isFunction v = false → truthy v = true →
        isFunction (getMember v "getState") = true →
        isFunction (getMember v "dispatch") = true →
        toState v = call0 (getMember v "getState"))
    ∧ (truthy v = false → toState v = v)
    ∧ (truthy v = true → isFunction v = false →
        (isFunction (getMember v "getState") = false
          ∨ isFunction (getMember v "dispatch") = false) →
        toState v = v) := by
  refine ⟨fun hf => ?_, fun hf ht hg hd => ?_, fun ht => ?_, fun ht hf hgd => ?_⟩
  · unfold toState
    simp [isFunction_truthy v hf, hf]
  · unfold toState
    simp [ht, hf, hg, hd]
  · unfold toState
    simp [ht]
  · unfold toState
    rcases hgd with h | h <;> simp [ht, hf, h]

/-- Witness for C7 at the store-like object
`{getState: () => ({y: 2}), dispatch: () => {}}`. -/
theorem claim_C7_witness :
    isFunction (JSVal.object 0
        [("getState", JSVal.func 1 (JSVal.object 2 [("y", JSVal.number 2)])),
         ("dispatch", JSVal.func 3 JSVal.undef)]) = false
    ∧ toState (JSVal.object 0
        [("getState", JSVal.func 1 (JSVal.object 2 [("y", JSVal.number 2)])),
         ("dispatch", JSVal.func 3 JSVal.undef)])
      = call0 (getMember (JSVal.object 0
        [("getState", JSVal.func 1 (JSVal.object 2 [("y", JSVal.number 2)])),
         ("dispatch", JSVal.func 3 JSVal.undef)]) "getState") :=
  ⟨rfl, (claim_C7 (JSVal.object 0
      [("getState", JSVal.func 1 (JSVal.object 2 [("y", JSVal.number 2)])),
       ("dispatch", JSVal.func 3 JSVal.undef)])).2.1 rfl rfl rfl rfl⟩

/-- C9, counterexample: idempotence by reference fails for `NaN`-valued
changes, because `NaN !== NaN` makes the second pass clone again.  With
`s = {}`, `c = {a: NaN}`: the first `assign` yields the object with id 1
and counter 2; re-applying `c` yields a fresh object (id 2) and another
allocation (counter 3) instead of the same reference. -/
theorem claim_C9_counterexample :
    (assign (⟨0, []⟩ : JSObj) [("a", JSVal.nan)] 1).1.id = 1
    ∧ (assign (⟨0, []⟩ : JSObj) [("a", JSVal.nan)] 1).2 = 2
    ∧ (assign (assign (⟨0, []⟩ : JSObj) [("a", JSVal.nan)] 1).1
        [("a", JSVal.nan)] (assign (⟨0, []⟩ : JSObj) [("a", JSVal.nan)] 1).2).1.id
      = 2
    ∧ (assign (assign (⟨0, []⟩ : JSObj) [("a", JSVal.nan)] 1).1
        [("a", JSVal.nan)] (assign (⟨0, []⟩ : JSObj) [("a", JSVal.nan)] 1).2).2
      = 3 :=
  ⟨rfl, rfl, rfl, rfl⟩

/-- C9, amended: `assign` is idempotent by reference provided the change
set binds each key once (as a JavaScript object does) and every value is
`===`-identical to itself (which excludes only `NaN`): re-applying the same
change set returns the very same reference and allocates nothing. -/
theorem claim_C9_amended (s : JSObj) (c : List (String × JSVal)) (ctr : Nat)
    (hnd : nodupKeys c = true)
    (hself : ∀ kv ∈ c, strictEq kv.2 kv.2 = true) :
    assign (assign s c ctr).1 c (assign s c ctr).2 = assign s c ctr :=
  (assign_eq_of_keyStable c (assign s c ctr).1 (assign s c ctr).2
    (assign_keyStable_all c s ctr hnd hself)).trans Prod.mk.eta

/-- Witness for C9 (amended) at `s = {}`, `c = {a: 1}`. -/
theorem claim_C9_amended_witness :
    nodupKeys [("a", JSVal.number 1)] = true
    ∧ (∀ kv ∈ [("a", JSVal.number 1)], strictEq kv.2 kv.2 = true)
    ∧ assign (assign (⟨0, []⟩ : JSObj) [("a", JSVal.number 1)] 1).1
        [("a", JSVal.number 1)] (assign (⟨0, []⟩ : JSObj) [("a", JSVal.number 1)] 1).2
      = assign (⟨0, []⟩ : JSObj) [("a", JSVal.number 1)] 1 :=
  ⟨rfl, by decide,
    claim_C9_amended ⟨0, []⟩ [("a", JSVal.number 1)] 1 rfl (by decide)⟩

/-- C10: `toState` returns every falsy input unchanged — `undefined`,
`false`, `0`, `NaN` and the empty string included. -/
theorem claim_C10 (v : JSVal) :
    (truthy v = false → toState v = v)
    ∧ toState JSVal.undef = JSVal.undef
    ∧ toState (JSVal.boolean false) = JSVal.boolean false
    ∧ toState (JSVal.number 0) = JSVal.number 0
    ∧ toState JSVal.nan = JSVal.nan
    ∧ toState (JSVal.string "") = JSVal.string "" := by
  refine ⟨fun ht => ?_, rfl, rfl, rfl, rfl, rfl⟩
  unfold toState
  simp [ht]

/-- Witness for C10 at the falsy input `NaN`. -/
theorem claim_C10_witness :
    truthy JSVal.nan = false ∧ toState JSVal.nan = JSVal.nan :=
  ⟨rfl, (claim_C10 JSVal.nan).1 rfl⟩

/-! ### Deep equality: reflexivity and symmetry -/

theorem hasOwn_iff_mem_keys (fs : List (String × JSVal)) (k : String) :
    hasOwn fs k = true ↔ k ∈ fs.map Prod.fst := by
  simp [hasOwn]

theorem hasOwn_of_mem (fs : List (String × JSVal)) (k : String) (v : JSVal)
    (h : (k, v) ∈ fs) : hasOwn fs k = true := by
  rw [hasOwn_iff_mem_keys]
  exact List.mem_map.2 ⟨(k, v), h, rfl⟩

theorem nodupKeys_iff (fs : List (String × JSVal)) :
    nodupKeys fs = true ↔ (fs.map Prod.fst).Nodup := by
  induction fs with
  | nil => simp [nodupKeys]
  | cons kv rest ih =>
      simp only [nodupKeys, Bool.and_eq_true, Bool.not_eq_true', List.map_cons,
        List.nodup_cons, ih]
      constructor
      · rintro ⟨h1, h2⟩
        refine ⟨fun hm => ?_, h2⟩
        rw [← hasOwn_iff_mem_keys] at hm
        rw [h1] at hm
        cases hm
      · rintro ⟨h1, h2⟩
        refine ⟨?_, h2⟩
        by_contra hh
        rw [Bool.not_eq_false, hasOwn_iff_mem_keys] at hh
        exact h1 hh

theorem findField_some_of_mem (gs : List (String × JSVal)) (k : String)
    (w : JSVal) (hnd : nodupKeys gs = true) (h : (k, w) ∈ gs) :
    findField gs k = some w := by
  induction gs with
  | nil => cases h
  | cons kv rest ih =>
      obtain ⟨h1, h2⟩ := (nodupKeys_cons_iff kv rest).1 hnd
      rcases List.mem_cons.1 h with h0 | h0
      · rw [← h0]
        simp [findField]
      · have hk : kv.1 ≠ k := by
          intro he
          have := hasOwn_of_mem rest k w h0
          rw [← he] at this
          rw [h1] at this
          cases this
        simp [findField, hk, ih h2 h0]

theorem mem_of_findField_some (gs : List (String × JSVal)) (k : String)
    (w : JSVal) (h : findField gs k = some w) : (k, w) ∈ gs := by
  induction gs with
  | nil => cases h
  | cons kv rest ih =>
      obtain ⟨k1, v1⟩ := kv
      by_cases hk : k1 = k
      · subst hk
        simp [findField] at h
        subst h
        exact List.mem_cons_self _ _
      · simp [findField, hk] at h
        exact List.mem_cons_of_mem _ (ih h)

/-- Unfolding of the object-field comparison: every binding of `fs` finds a
deeply equal binding in `gs`. -/
theorem deepEqFields_iff (fs gs : List (String × JSVal)) :
    deepEqFields fs gs = true
      ↔ ∀ kv ∈ fs, ∃ w, findField gs kv.1 = some w ∧ deepEq kv.2 w = true := by
  induction fs with
  | nil => simp [deepEqFields]
  | cons kv rest ih =>
      obtain ⟨k, v⟩ := kv
      rw [deepEqFields]
      simp only [Bool.and_eq_true, ih, List.mem_cons]
      constructor
      · rintro ⟨h1, h2⟩
        intro kv hkv
        rcases hkv with h0 | h0
        · subst h0
          rcases hf : findField gs k with _ | w
          · rw [hf] at h1
            cases h1
          · rw [hf] at h1
            exact ⟨w, rfl, h1⟩
        · exact h2 kv h0
      · intro h
        constructor
        · obtain ⟨w, hw, he⟩ := h (k, v) (Or.inl rfl)
          rw [hw]
          exact he
        · intro kv hkv
          exact h kv (Or.inr hkv)

theorem wfVal_object (i : Nat) (fs : List (String × JSVal)) :
    wfVal (JSVal.object i fs) = true
      ↔ nodupKeys fs = true ∧ wfFields fs = true := by
  simp [wfVal]

theorem wfVal_array (i : Nat) (xs : List JSVal) :
    wfVal (JSVal.array i xs) = true ↔ wfList xs = true := by
  simp [wfVal]

theorem wfFields_mem (fs : List (String × JSVal)) (hwf : wfFields fs = true) :
    ∀ kv ∈ fs, wfVal kv.2 = true := by
  induction fs with
  | nil => intro kv hkv; cases hkv
  | cons kv0 rest ih =>
      obtain ⟨k0, v0⟩ := kv0
      rw [wfFields, Bool.and_eq_true] at hwf
      intro kv hkv
      rcases List.mem_cons.1 hkv with h | h
      · subst h
        exact hwf.1
      · exact ih hwf.2 kv h

theorem wfList_mem (xs : List JSVal) (hwf : wfList xs = true) :
    ∀ x ∈ xs, wfVal x = true := by
  induction xs with
  | nil => intro x hx; cases hx
  | cons x0 rest ih =>
      rw [wfList, Bool.and_eq_true] at hwf
      intro x hx
      rcases List.mem_cons.1 hx with h | h
      · subst h
        exact hwf.1
      · exact ih hwf.2 x h

theorem sizeOf_lt_of_mem_fields (i : Nat) (fs : List (String × JSVal))
    (k : String) (v : JSVal) (h : (k, v) ∈ fs) :
    sizeOf v < sizeOf (JSVal.object i fs) := by
  have h1 := List.sizeOf_lt_of_mem h
  simp only [Prod.mk.sizeOf_spec] at h1
  simp only [JSVal.object.sizeOf_spec]
  omega

theorem sizeOf_lt_of_mem_elems (i : Nat) (xs : List JSVal) (x : JSVal)
    (h : x ∈ xs) : sizeOf x < sizeOf (JSVal.array i xs) := by
  have h1 := List.sizeOf_lt_of_mem h
  simp only [JSVal.array.sizeOf_spec]
  omega

theorem deepEqList_refl (xs : List JSVal)
    (h : ∀ x ∈ xs, deepEq x x = true) : deepEqList xs xs = true := by
  induction xs with
  | nil => simp [deepEqList]
  | cons x rest ih =>
      rw [deepEqList, Bool.and_eq_true]
      exact ⟨h x (List.mem_cons_self _ _),
        ih (fun x hx => h x (List.mem_cons_of_mem _ hx))⟩

theorem deepEqFields_refl (fs : List (String × JSVal))
    (hnd : nodupKeys fs = true)
    (h : ∀ kv ∈ fs, deepEq kv.2 kv.2 = true) : deepEqFields fs fs = true := by
  rw [deepEqFields_iff]
  intro kv hkv
  have hm : (kv.1, kv.2) ∈ fs := by simpa using hkv
  exact ⟨kv.2, findField_some_of_mem fs kv.1 kv.2 hnd hm, h kv hkv⟩

/-- Reflexivity of the deep comparison on well-formed values, by strong
induction on the size of the value. -/
theorem deepEq_refl_fuel :
    ∀ (n : Nat) (a : JSVal), sizeOf a ≤ n → wfVal a = true →
      deepEq a a = true := by
  intro n
  induction n using Nat.strong_induction_on with
  | _ n ih =>
      intro a hsz hwf
      cases a with
      | undef => simp [deepEq]
      | null => simp [deepEq]
      | boolean b => simp [deepEq]
      | number m => simp [deepEq]
      | nan => simp [deepEq]
      | string s => simp [deepEq]
      | func i r => simp [deepEq]
      | object i fs =>
          obtain ⟨hnd, hfs⟩ := (wfVal_object i fs).1 hwf
          rw [deepEq, Bool.and_eq_true]
          refine ⟨by simp, deepEqFields_refl fs hnd (fun kv hkv => ?_)⟩
          have hm : (kv.1, kv.2) ∈ fs := by simpa using hkv
          exact ih (sizeOf kv.2)
            (Nat.lt_of_lt_of_le (sizeOf_lt_of_mem_fields i fs kv.1 kv.2 hm) hsz)
            kv.2 Nat.le.refl (wfFields_mem fs hfs kv hkv)
      | array i xs =>
          have hxs := (wfVal_array i xs).1 hwf
          rw [deepEq]
          refine deepEqList_refl xs (fun x hx => ?_)
          exact ih (sizeOf x)
            (Nat.lt_of_lt_of_le (sizeOf_lt_of_mem_elems i xs x hx) hsz)
            x Nat.le.refl (wfList_mem xs hxs x hx)

theorem mem_keys_exists (fs : List (String × JSVal)) (k : String)
    (h : k ∈ fs.map Prod.fst) : ∃ v, (k, v) ∈ fs := by
  obtain ⟨kv, hkv, hfst⟩ := List.mem_map.1 h
  exact ⟨kv.2, by rw [← hfst]; simpa using hkv⟩

theorem deepEqList_symm (xs : List JSVal) :
    ∀ ys, (∀ x ∈ xs, ∀ y ∈ ys, deepEq x y = true → deepEq y x = true) →
      deepEqList xs ys = true → deepEqList ys xs = true := by
  induction xs with
  | nil =>
      intro ys _ h
      cases ys with
      | nil => simp [deepEqList]
      | cons y yrest => simp [deepEqList] at h
  | cons x rest ih =>
      intro ys hsym h
      cases ys with
      | nil => simp [deepEqList] at h
      | cons y yrest =>
          rw [deepEqList, Bool.and_eq_true] at h ⊢
          refine ⟨hsym x (List.mem_cons_self _ _) y (List.mem_cons_self _ _) h.1,
            ih yrest (fun x hx y hy =>
              hsym x (List.mem_cons_of_mem _ hx) y (List.mem_cons_of_mem _ hy))
              h.2⟩

/-- A deep field comparison between duplicate-free field lists of equal
length determines the key sets to coincide. -/
theorem keys_sub_of_deepEqFields (fs gs : List (String × JSVal))
    (hndf : nodupKeys fs = true) (hndg : nodupKeys gs = true)
    (hlen : fs.length = gs.length) (h : deepEqFields fs gs = true) :
    ∀ k ∈ gs.map Prod.fst, k ∈ fs.map Prod.fst := by
  have hsub : ∀ k ∈ fs.map Prod.fst, k ∈ gs.map Prod.fst := by
    intro k hk
    obtain ⟨v, hv⟩ := mem_keys_exists fs k hk
    obtain ⟨w, hw, _⟩ := (deepEqFields_iff fs gs).1 h (k, v) hv
    exact List.mem_map.2 ⟨(k, w), mem_of_findField_some gs k w hw, rfl⟩
  have hnf := (nodupKeys_iff fs).1 hndf
  have hng := (nodupKeys_iff gs).1 hndg
  have hsubF : (fs.map Prod.fst).toFinset ⊆ (gs.map Prod.fst).toFinset := by
    intro x hx
    rw [List.mem_toFinset] at hx ⊢
    exact hsub x hx
  have hc1 : (fs.map Prod.fst).toFinset.card = fs.length := by
    rw [List.toFinset_card_of_nodup hnf, List.length_map]
  have hc2 : (gs.map Prod.fst).toFinset.card = gs.length := by
    rw [List.toFinset_card_of_nodup hng, List.length_map]
  have hEq : (fs.map Prod.fst).toFinset = (gs.map Prod.fst).toFinset :=
    Finset.eq_of_subset_of_card_le hsubF (by omega)
  intro k hk
  rw [← List.mem_toFinset, ← hEq, List.mem_toFinset] at hk
  exact hk

theorem deepEqFields_symm (fs gs : List (String × JSVal))
    (hndf : nodupKeys fs = true) (hndg : nodupKeys gs = true)
    (hlen : fs.length = gs.length)
    (hsym : ∀ kv ∈ fs, ∀ kw ∈ gs,
      deepEq kv.2 kw.2 = true → deepEq kw.2 kv.2 = true)
    (h : deepEqFields fs gs = true) : deepEqFields gs fs = true := by
  rw [deepEqFields_iff]
  intro kw hkw
  have hkg : kw.1 ∈ gs.map Prod.fst := List.mem_map.2 ⟨kw, hkw, rfl⟩
  have hkf : kw.1 ∈ fs.map Prod.fst :=
    keys_sub_of_deepEqFields fs gs hndf hndg hlen h kw.1 hkg
  obtain ⟨v, hv⟩ := mem_keys_exists fs kw.1 hkf
  obtain ⟨w, hw, he⟩ := (deepEqFields_iff fs gs).1 h (kw.1, v) hv
  have hw2 : findField gs kw.1 = some kw.2 :=
    findField_some_of_mem gs kw.1 kw.2 hndg (by simpa using hkw)
  rw [hw] at hw2
  have hwe : w = kw.2 := Option.some_inj.1 hw2
  subst hwe
  exact ⟨v, findField_some_of_mem fs kw.1 v hndf hv,
    hsym (kw.1, v) hv kw hkw he⟩

/-- Symmetry (true direction) of the deep comparison on well-formed values,
by strong induction on the size of the first value. -/
theorem deepEq_symm_fuel :
    ∀ (n : Nat) (a b : JSVal), sizeOf a ≤ n → wfVal a = true →
      wfVal b = true → deepEq a b = true → deepEq b a = true := by
  intro n
  induction n using Nat.strong_induction_on with
  | _ n ih =>
      intro a b hsz hwa hwb h
      cases a with
      | undef => cases b <;> simp [deepEq] at h ⊢
      | null => cases b <;> simp [deepEq] at h ⊢
      | nan => cases b <;> simp [deepEq] at h ⊢
      | boolean x =>
          cases b <;> simp [deepEq] at h ⊢
          exact h.symm
      | number x =>
          cases b <;> simp [deepEq] at h ⊢
          exact h.symm
      | string x =>
          cases b <;> simp [deepEq] at h ⊢
          exact h.symm
      | func i r =>
          cases b <;> simp [deepEq] at h ⊢
          exact h.symm
      | object i fs =>
          cases b with
          | object j gs =>
              obtain ⟨hndf, hff⟩ := (wfVal_object i fs).1 hwa
              obtain ⟨hndg, hgg⟩ := (wfVal_object j gs).1 hwb
              rw [deepEq, Bool.and_eq_true] at h ⊢
              have hlen : fs.length = gs.length := by
                have := h.1
                simpa using this
              refine ⟨by simp [hlen], ?_⟩
              refine deepEqFields_symm fs gs hndf hndg hlen ?_ h.2
              intro kv hkv kw hkw hde
              have hm : (kv.1, kv.2) ∈ fs := by simpa using hkv
              exact ih (sizeOf kv.2)
                (Nat.lt_of_lt_of_le
                  (sizeOf_lt_of_mem_fields i fs kv.1 kv.2 hm) hsz)
                kv.2 kw.2 Nat.le.refl (wfFields_mem fs hff kv hkv)
                (wfFields_mem gs hgg kw hkw) hde
          | undef => simp [deepEq] at h
          | null => simp [deepEq] at h
          | nan => simp [deepEq] at h
          | boolean y => simp [deepEq] at h
          | number y => simp [deepEq] at h
          | string y => simp [deepEq] at h
          | func j r => simp [deepEq] at h
          | array j ys => simp [deepEq] at h
      | array i xs =>
          cases b with
          | array j ys =>
              have hxs := (wfVal_array i xs).1 hwa
              have hys := (wfVal_array j ys).1 hwb
              rw [deepEq] at h ⊢
              refine deepEqList_symm xs ys ?_ h
              intro x hx y hy hde
              exact ih (sizeOf x)
                (Nat.lt_of_lt_of_le (sizeOf_lt_of_mem_elems i xs x hx) hsz)
                x y Nat.le.refl (wfList_mem xs hxs x hx)
                (wfList_mem ys hys y hy) hde
          | undef => simp [deepEq] at h
          | null => simp [deepEq] at h
          | nan => simp [deepEq] at h
          | boolean y => simp [deepEq] at h
          | number y => simp [deepEq] at h
          | string y => simp [deepEq] at h
          | func j r => simp [deepEq] at h
          | object j gs => simp [deepEq] at h

/-- C8: `equals` (deep comparison) is reflexive and symmetric on
well-formed JavaScript values (objects binding each key once, as every real
JavaScript object does), returns true on structurally identical nested
values — `equals({a: [1, {b: 2}]}, {a: [1, {b: 2}]})` with all object and
array identities distinct — and false when types differ —
`equals({a: 1}, {a: '1'})`. -/
theorem claim_C8 :
    (∀ a, wfVal a = true → equals a a = true)
    ∧ (∀ a b, wfVal a = true → wfVal b = true → equals a b = equals b a)
    ∧ equals
        (JSVal.object 0 [("a", JSVal.array 1
          [JSVal.number 1, JSVal.object 2 [("b", JSVal.number 2)]])])
        (JSVal.object 3 [("a", JSVal.array 4
          [JSVal.number 1, JSVal.object 5 [("b", JSVal.number 2)]])]) = true
    ∧ equals (JSVal.object 0 [("a", JSVal.number 1)])
        (JSVal.object 1 [("a", JSVal.string "1")]) = false := by
  refine ⟨fun a h => deepEq_refl_fuel (sizeOf a) a Nat.le.refl h,
    fun a b ha hb => ?_, ?_, ?_⟩
  · by_cases hab : deepEq a b = true
    · rw [equals, equals, hab,
        deepEq_symm_fuel (sizeOf a) a b Nat.le.refl ha hb hab]
    · have hba : ¬deepEq b a = true := fun hba =>
        hab (deepEq_symm_fuel (sizeOf b) b a Nat.le.refl hb ha hba)
      have h1 : deepEq a b = false := by
        revert hab
        cases deepEq a b <;> simp
      have h2 : deepEq b a = false := by
        revert hba
        cases deepEq b a <;> simp
      rw [equals, equals, h1, h2]
  · simp [equals, deepEq, deepEqList, deepEqFields, findField]
  · simp [equals, deepEq, deepEqFields, findField]

/-- Witness for C8 (reflexivity) at the well-formed value `{a: 1}`. -/
theorem claim_C8_witness :
    wfVal (JSVal.object 0 [("a", JSVal.number 1)]) = true
    ∧ equals (JSVal.object 0 [("a", JSVal.number 1)])
        (JSVal.object 0 [("a", JSVal.number 1)]) = true :=
  ⟨by simp [wfVal, wfFields, nodupKeys, hasOwn],
    claim_C8.1 (JSVal.object 0 [("a", JSVal.number 1)])
      (by simp [wfVal, wfFields, nodupKeys, hasOwn])⟩

end ReduxFunctions
